import Mathlib

set_option maxHeartbeats 1000000

/-!
Verification of the XPDK userspace UDP data plane.

This file shallowly embeds the data-plane core of the repository:
the lock-free ring buffers (`lockfree-ringbuf/src/lib.rs`, `mpmc.rs`,
`spmc.rs`), the mbuf pool (`src/memory/mod.rs`), the UDP parser, packet
view, socket and stack pump (`src/udp/mod.rs`).  Sequential (single
thread, uncontended) semantics are used: every compare-exchange succeeds
on its first attempt, so the CAS loops of the source collapse into their
loop bodies.  Machine integers (`usize`, 64-bit) are modeled as `Nat`
with explicit wrapping arithmetic modulo `2 ^ 64` where the source relies
on wrapping; raw pointers are modeled as `Nat` address values with `0`
playing the role of the null pointer.
-/

/-- The `usize` modulus `2 ^ 64`; indices and pointers are 64-bit words. -/
def USIZE : Nat := 18446744073709551616

/-- Models `usize` wrapping addition (`a.wrapping_add(b)`). -/
def wadd (a b : Nat) : Nat := (a + b) % USIZE

/-- Models `usize` wrapping subtraction (`a.wrapping_sub(b)`), for `a b < USIZE`. -/
def wsub (a b : Nat) : Nat := (a + USIZE - b % USIZE) % USIZE

/-- Rust `usize::is_power_of_two` (true exactly when the value is `2 ^ k`). -/
def is_power_of_two (n : Nat) : Bool := decide (∃ k, k ≤ n ∧ 2 ^ k = n)

/-- Rust `usize::next_power_of_two`: the least power of two `≥ n` (and `1`
for `n ≤ 1`). -/
def next_power_of_two (n : Nat) : Nat := if n ≤ 1 then 1 else 2 ^ Nat.size (n - 1)

/-- Error type of the `lockfree-ringbuf` crate (`lib.rs`). -/
inductive RBError where
  | Full : RBError
  | Empty : RBError
deriving Repr, DecidableEq

/-- Embeds `RingBufferStorage<T>` (`lockfree-ringbuf/src/lib.rs`): the slot vector
plus the power-of-two capacity and its index mask.  The source allocates the
vector uninitialized (`set_len`); the model fills it with `default`. -/
structure RingBufferStorage (α : Type) where
  buffer : List α
  capacity : Nat
  mask : Nat
deriving Repr, DecidableEq

namespace RingBufferStorage

/-- Embeds `RingBufferStorage::new`: the requested capacity is kept when it is a
power of two and otherwise rounded up with `next_power_of_two`; the mask is
`capacity - 1`. -/
def new (α : Type) [Inhabited α] (capacity : Nat) : RingBufferStorage α :=
  let capacity := if is_power_of_two capacity then capacity else next_power_of_two capacity
  { buffer := List.replicate capacity default, capacity := capacity, mask := capacity - 1 }

/-- Embeds `RingBufferStorage::read`: reads slot `index & mask`. -/
def read [Inhabited α] (s : RingBufferStorage α) (index : Nat) : α :=
  s.buffer.getD (index &&& s.mask) default

/-- Embeds `RingBufferStorage::write`: writes slot `index & mask`. -/
def write (s : RingBufferStorage α) (index : Nat) (value : α) : RingBufferStorage α :=
  { s with buffer := s.buffer.set (index &&& s.mask) value }

/-- Embeds `RingBufferStorage::write_batch`: writes `src[i]` to slot
`(start_index + i) & mask` for each `i`. -/
def write_batch (s : RingBufferStorage α) (start_index : Nat) (src : List α) :
    RingBufferStorage α :=
  match src with
  | [] => s
  | x :: xs => write_batch (s.write start_index x) (start_index + 1) xs

/-- Embeds `RingBufferStorage::read_batch`: overwrites each element of `dst` with
the slot at `(start_index + i) & mask`; returns the new `dst` contents. -/
def read_batch [Inhabited α] (s : RingBufferStorage α) (start_index : Nat) (dst : List α) :
    List α :=
  match dst with
  | [] => []
  | _ :: ds => s.read start_index :: read_batch s (start_index + 1) ds

end RingBufferStorage

/-- Shared shape of `MpmcRingBuffer<T>` / `SpmcRingBuffer<T>` /
`SpscRingBuffer<T>`: the storage plus the two monotone 64-bit indices
`head` (consumer) and `tail` (producer). -/
structure RingBuffer (α : Type) where
  storage : RingBufferStorage α
  head : Nat
  tail : Nat
deriving Repr, DecidableEq

namespace MpmcRingBuffer

/-- Embeds `MpmcRingBuffer::new`. -/
def new (α : Type) [Inhabited α] (capacity : Nat) : RingBuffer α :=
  { storage := RingBufferStorage.new α capacity, head := 0, tail := 0 }

/-- Embeds `MpmcRingBuffer::capacity`. -/
def capacity (rb : RingBuffer α) : Nat := rb.storage.capacity

/-- Embeds `MpmcRingBuffer::push` (`mpmc.rs` lines 37-68).  Sequentially the
reserving compare-exchange succeeds at once, so the CAS loop runs its body
exactly once: full check against `tail.wrapping_sub(head)`, then write the
reserved slot and advance `tail`.  The error branch leaves the buffer
unchanged. -/
def push [Inhabited α] (rb : RingBuffer α) (value : α) :
    Except RBError Unit × RingBuffer α :=
  if wsub rb.tail rb.head ≥ rb.storage.capacity then (.error .Full, rb)
  else (.ok (), { rb with storage := rb.storage.write rb.tail value,
                          tail := wadd rb.tail 1 })

/-- Embeds `MpmcRingBuffer::pop` (`mpmc.rs` lines 72-101): empty check
`head == tail`, then read the reserved slot and advance `head`. -/
def pop [Inhabited α] (rb : RingBuffer α) :
    Except RBError α × RingBuffer α :=
  if rb.head = rb.tail then (.error .Empty, rb)
  else (.ok (rb.storage.read rb.head), { rb with head := wadd rb.head 1 })

/-- Embeds `MpmcRingBuffer::is_empty`. -/
def is_empty (rb : RingBuffer α) : Bool := rb.head = rb.tail

/-- Embeds `MpmcRingBuffer::is_full`. -/
def is_full (rb : RingBuffer α) : Bool := wsub rb.tail rb.head ≥ rb.storage.capacity

/-- Embeds `MpmcRingBuffer::len`. -/
def len (rb : RingBuffer α) : Nat := wsub rb.tail rb.head

/-- Embeds `BatchOps::push_batch` for `MpmcRingBuffer` (`mpmc.rs` lines 126-162):
empty slices succeed at once; otherwise the whole batch is refused with
`Full` when it exceeds `capacity - (tail - head)`, else the reserved range
is written and `tail` advanced by the batch length. -/
def push_batch (rb : RingBuffer α) (items : List α) :
    Except RBError Unit × RingBuffer α :=
  if items.isEmpty then (.ok (), rb)
  else
    let available := rb.storage.capacity - wsub rb.tail rb.head
    if items.length > available then (.error .Full, rb)
    else (.ok (), { rb with storage := rb.storage.write_batch rb.tail items,
                            tail := wadd rb.tail items.length })

/-- Embeds `BatchOps::pop_batch` for `MpmcRingBuffer` (`mpmc.rs` lines 164-202):
empty output slices return count 0; an empty buffer returns `Empty`;
otherwise `min (buf.len()) (tail - head)` slots are read into the front of
`buf` and `head` advances by that count. -/
def pop_batch [Inhabited α] (rb : RingBuffer α) (buf : List α) :
    Except RBError Nat × List α × RingBuffer α :=
  if buf.isEmpty then (.ok 0, buf, rb)
  else
    let available := wsub rb.tail rb.head
    if available = 0 then (.error .Empty, buf, rb)
    else
      let count := min buf.length available
      (.ok count,
       rb.storage.read_batch rb.head (buf.take count) ++ buf.drop count,
       { rb with head := wadd rb.head count })

end MpmcRingBuffer

namespace SpmcRingBuffer

/-- Embeds `SpmcRingBuffer::new`. -/
def new (α : Type) [Inhabited α] (capacity : Nat) : RingBuffer α :=
  { storage := RingBufferStorage.new α capacity, head := 0, tail := 0 }

/-- Embeds `SpmcRingBuffer::capacity`. -/
def capacity (rb : RingBuffer α) : Nat := rb.storage.capacity

/-- Embeds `SpmcRingBuffer::push` (`spmc.rs` lines 37-51): the single producer
checks fullness against `tail.wrapping_sub(head)`, writes the slot at
`tail` and publishes `tail + 1` with a release store. -/
def push [Inhabited α] (rb : RingBuffer α) (value : α) :
    Except RBError Unit × RingBuffer α :=
  if wsub rb.tail rb.head ≥ rb.storage.capacity then (.error .Full, rb)
  else (.ok (), { rb with storage := rb.storage.write rb.tail value,
                          tail := wadd rb.tail 1 })

/-- Embeds `SpmcRingBuffer::pop` (`spmc.rs` lines 55-84): sequentially identical
to the MPMC pop (the consumer compare-exchange succeeds at once). -/
def pop [Inhabited α] (rb : RingBuffer α) :
    Except RBError α × RingBuffer α :=
  if rb.head = rb.tail then (.error .Empty, rb)
  else (.ok (rb.storage.read rb.head), { rb with head := wadd rb.head 1 })

/-- Embeds `BatchOps::push_batch` for `SpmcRingBuffer` (`spmc.rs` lines 109-129). -/
def push_batch (rb : RingBuffer α) (items : List α) :
    Except RBError Unit × RingBuffer α :=
  if items.isEmpty then (.ok (), rb)
  else
    let available := rb.storage.capacity - wsub rb.tail rb.head
    if items.length > available then (.error .Full, rb)
    else (.ok (), { rb with storage := rb.storage.write_batch rb.tail items,
                            tail := wadd rb.tail items.length })

/-- Embeds `BatchOps::pop_batch` for `SpmcRingBuffer` (`spmc.rs` lines 131-169). -/
def pop_batch [Inhabited α] (rb : RingBuffer α) (buf : List α) :
    Except RBError Nat × List α × RingBuffer α :=
  if buf.isEmpty then (.ok 0, buf, rb)
  else
    let available := wsub rb.tail rb.head
    if available = 0 then (.error .Empty, buf, rb)
    else
      let count := min buf.length available
      (.ok count,
       rb.storage.read_batch rb.head (buf.take count) ++ buf.drop count,
       { rb with head := wadd rb.head count })

end SpmcRingBuffer

namespace SpscRingBuffer

/-- Modelled from the spec: the file `lockfree-ringbuf/src/spsc.rs` of this
repository is declared in `lib.rs` but is not present under `src/`.  Per
§4.1 of the spec, the SPSC variant shares the storage and the head/tail
index scheme of the other variants, and `push` returns `Full` iff the
occupancy `tail - head` (wrapping) is at least the capacity. -/
def new (α : Type) [Inhabited α] (capacity : Nat) : RingBuffer α :=
  { storage := RingBufferStorage.new α capacity, head := 0, tail := 0 }

/-- Modelled from the spec: `SpscRingBuffer::push` (`spsc.rs` missing from
`src/`); §4.1: returns `Full` iff occupancy ≥ capacity, else writes the
slot at `tail` and advances `tail`. -/
def push [Inhabited α] (rb : RingBuffer α) (value : α) :
    Except RBError Unit × RingBuffer α :=
  if wsub rb.tail rb.head ≥ rb.storage.capacity then (.error .Full, rb)
  else (.ok (), { rb with storage := rb.storage.write rb.tail value,
                          tail := wadd rb.tail 1 })

/-- Modelled from the spec: `SpscRingBuffer::pop` (`spsc.rs` missing from
`src/`); §4.1: returns `Empty` iff `head == tail`, else reads the slot at
`head` and advances `head`. -/
def pop [Inhabited α] (rb : RingBuffer α) :
    Except RBError α × RingBuffer α :=
  if rb.head = rb.tail then (.error .Empty, rb)
  else (.ok (rb.storage.read rb.head), { rb with head := wadd rb.head 1 })

end SpscRingBuffer

/-- The crate-level error sum type (`src/lib.rs`); only the variants the
data-plane core produces are carried, each with its descriptive string. -/
inductive XpdkError where
  | MemoryAllocation : String → XpdkError
  | NetworkError : String → XpdkError
  | QueueError : String → XpdkError
  | PcapError : String → XpdkError
deriving Repr, DecidableEq

/-- Embeds `PacketType` (`src/memory/mod.rs`). -/
inductive PacketType where
  | Unknown | Ethernet | Ipv4 | Ipv6 | Udp | Tcp | Icmp
deriving Repr, DecidableEq

/-- Value of `size_of::<Mbuf>()`: the record is `#[repr(C, align(64))]` and padded
to exactly one 64-byte cache line. -/
def MBUF_SIZE : Nat := 64

/-- The `Mbuf` record (`src/memory/mod.rs` lines 142-161).  `data` is the
first field of the `repr(C)` layout: it holds a raw address value, and it
is exactly this word that `MbufPool` re-purposes as the freelist link
(`ptr::write(mbuf_ptr as *mut *mut Mbuf, free_head)` writes the record's
first word).  `offload_flags` is the `u32` bitset. -/
structure Mbuf where
  data : Nat
  len : Nat
  buf_len : Nat
  packet_type : PacketType
  offload_flags : Nat
  timestamp : Nat
  queue_id : Nat
deriving Repr, DecidableEq

namespace Mbuf

/-- Embeds `Mbuf::new`. -/
def new (data : Nat) (buf_len : Nat) : Mbuf :=
  { data := data, len := 0, buf_len := buf_len, packet_type := .Unknown,
    offload_flags := 0, timestamp := 0, queue_id := 0 }

/-- Embeds `Mbuf::reset`: clears `len`, type, flags, timestamp and queue id.
Note that `data` is not touched. -/
def reset (m : Mbuf) : Mbuf :=
  { m with len := 0, packet_type := .Unknown, offload_flags := 0,
           timestamp := 0, queue_id := 0 }

/-- Embeds `Mbuf::append` (`src/memory/mod.rs` lines 189-199).  The record is
paired with the byte contents of its data region (`region`, of length
`buf_len`): on success the bytes are copied to offsets
`[len, len + bytes.length)` of the region and `len` grows; on overflow
the error is returned before anything is written. -/
def append (m : Mbuf) (region : List Nat) (bytes : List Nat) :
    Except XpdkError Unit × Mbuf × List Nat :=
  if m.len + bytes.length > m.buf_len then
    (.error (.MemoryAllocation "Mbuf overflow"), m, region)
  else
    (.ok (), { m with len := m.len + bytes.length },
     region.take m.len ++ bytes ++ region.drop (m.len + bytes.length))

end Mbuf

/-- Address of mbuf record `i` inside the pool region that starts at
`base`: the mbuf array occupies the head of the region. -/
def mbufAddr (base i : Nat) : Nat := base + i * MBUF_SIZE

/-- Address of the data slot assigned to mbuf `i` at pool construction:
the data buffers follow the mbuf array. -/
def dataAddr (base size buf_size i : Nat) : Nat :=
  base + size * MBUF_SIZE + i * buf_size

/-- Embeds `MbufPool` (`src/memory/mod.rs` lines 244-261).  `base` is the address
returned by the huge-page allocator (abstract, nonzero), `mbufs` the `size`
records living at `base + i * 64`, `free_list` the head address of the
intrusive LIFO freelist (`0` = null).  The `PoolMetadata` cell is inlined
as the three counters. -/
structure MbufPool where
  size : Nat
  buf_size : Nat
  base : Nat
  mbufs : List Mbuf
  free_list : Nat
  allocated : Nat
  available : Nat
  peak_usage : Nat
deriving Repr, DecidableEq

/-- The construction loop of `MbufPool::new` (lines 287-303).  For each
`i` it writes `Mbuf::new(mbuf_data, buf_size)` into record `i`, reassigns
`(*mbuf_ptr).data = mbuf_data` (redundant), and then executes
`ptr::write(mbuf_ptr as *mut *mut Mbuf, free_head)`, which clobbers the
record's first field `data` with the current freelist head; finally the
record becomes the new head.  Returns the records and the final head. -/
def initMbufs (base size buf_size : Nat) : Nat → List Mbuf × Nat
  | 0 => ([], 0)
  | i + 1 =>
    let p := initMbufs base size buf_size i
    let m0 := Mbuf.new (dataAddr base size buf_size i) buf_size
    let m1 := { m0 with data := dataAddr base size buf_size i }
    let m2 := { m1 with data := p.2 }
    (p.1 ++ [m2], mbufAddr base i)

namespace MbufPool

/-- Embeds `MbufPool::new` (lines 275-318): one region holds the records then the
data buffers; the freelist is built front-pushing records `0..size`; the
metadata starts at `allocated = available = size`, `peak_usage = 0`. -/
def new (base size buf_size : Nat) : MbufPool :=
  let p := initMbufs base size buf_size size
  { size := size, buf_size := buf_size, base := base, mbufs := p.1,
    free_list := p.2, allocated := size, available := size, peak_usage := 0 }

/-- Embeds `MbufPool::alloc` (lines 321-341).  Sequentially the compare-exchange
succeeds at once: pop the freelist head, reading the next link from the
head record's first word (its `data` field — the link written there is
never replaced by the slot's data address), then update `available` with
`saturating_sub` and `peak_usage`.  An empty list yields the
`MemoryAllocation` error with the pool unchanged.  Dereferencing a head
address outside the pool is undefined behavior in the source and is mapped
to an error here; it is unreachable from valid pool states. -/
def alloc (p : MbufPool) : Except XpdkError Nat × MbufPool :=
  if p.free_list = 0 then (.error (.MemoryAllocation "Pool exhausted"), p)
  else
    match p.mbufs.get? ((p.free_list - p.base) / MBUF_SIZE) with
    | none => (.error (.MemoryAllocation "invalid freelist head"), p)
    | some m =>
      let next := m.data
      let available := p.available - 1
      let peak_usage := max p.peak_usage (p.size - available)
      (.ok p.free_list,
       { p with free_list := next, available := available, peak_usage := peak_usage })

/-- Embeds `MbufPool::free` (lines 344-371).  Freeing null is a no-op; otherwise
the record is `reset`, its first word (`data`) is overwritten with the
current head (`*(mbuf as *mut *mut Mbuf) = current_head`), the head becomes
the freed address and `available` is incremented (`saturating_add`).  The
source always returns `Ok`; a pointer outside the pool is undefined
behavior there and leaves the model unchanged. -/
def free (p : MbufPool) (mbuf : Nat) : MbufPool :=
  if mbuf = 0 then p
  else
    let i := (mbuf - p.base) / MBUF_SIZE
    match p.mbufs.get? i with
    | none => p
    | some m =>
      let m2 := { m.reset with data := p.free_list }
      { p with mbufs := p.mbufs.set i m2, free_list := mbuf,
               available := p.available + 1 }

end MbufPool

/-- Value of `size_of::<EthernetHeader>()` (`repr(C, packed)`): 6 + 6 + 2 bytes. -/
def ETH_HLEN : Nat := 14

/-- Value of `size_of::<Ipv4Header>()` (`repr(C, packed)`): 20 bytes. -/
def IPV4_HLEN : Nat := 20

/-- Value of `size_of::<UdpHeader>()` (`repr(C, packed)`): 8 bytes. -/
def UDP_HLEN : Nat := 8

/-- Read a big-endian `u16` at byte offset `i` of a frame, as the packed
header structs do through `u16::from_be` (network byte order). -/
def be16 (data : List Nat) (i : Nat) : Nat :=
  data.getD i 0 * 256 + data.getD (i + 1) 0

/-- The distinct `Error::NetworkError` messages `UdpPacket::from_mbuf`
produces, one constructor per failing check (`src/udp/mod.rs` 165-220). -/
inductive ParseError where
  | ShortEthernet : ParseError
  | NotIpv4 : ParseError
  | ShortIpv4 : ParseError
  | NotUdp : ParseError
  | ShortUdp : ParseError
deriving Repr, DecidableEq

/-- Embeds `UdpPacket` (`src/udp/mod.rs` lines 150-161): the non-owning packet
view recording the header offsets into the mbuf; the mbuf pointer itself
is dropped here and the frame bytes are passed alongside where needed. -/
structure UdpPacket where
  eth_offset : Nat
  ip_offset : Nat
  udp_offset : Nat
  payload_offset : Nat
deriving Repr, DecidableEq

namespace UdpPacket

/-- Embeds `UdpPacket::from_mbuf` (`src/udp/mod.rs` lines 165-220) on the mbuf's
byte slice `data` (of length `mbuf.len`): checks, in order, room for the
Ethernet header, EtherType `0x0800`, room for the IPv4 header at offset
14, IPv4 protocol 17, and room for the UDP header at offset
`14 + ihl * 4` where `ihl` is the low nibble of the first IPv4 byte. -/
def from_mbuf (data : List Nat) : Except ParseError UdpPacket :=
  if data.length < ETH_HLEN then .error .ShortEthernet
  else
    let eth_offset := 0
    if be16 data (eth_offset + 12) ≠ 0x0800 then .error .NotIpv4
    else
      let ip_offset := eth_offset + ETH_HLEN
      if data.length < ip_offset + IPV4_HLEN then .error .ShortIpv4
      else if data.getD (ip_offset + 9) 0 ≠ 17 then .error .NotUdp
      else
        let udp_offset := ip_offset + (data.getD ip_offset 0 &&& 0x0F) * 4
        if data.length < udp_offset + UDP_HLEN then .error .ShortUdp
        else .ok { eth_offset := eth_offset, ip_offset := ip_offset,
                   udp_offset := udp_offset,
                   payload_offset := udp_offset + UDP_HLEN }

/-- Reads `UdpHeader::dst_port()` as read through the view: big-endian `u16` at
`udp_offset + 2`. -/
def dst_port (p : UdpPacket) (data : List Nat) : Nat :=
  be16 data (p.udp_offset + 2)

/-- Reads `UdpHeader::src_port()` as read through the view. -/
def src_port (p : UdpPacket) (data : List Nat) : Nat :=
  be16 data (p.udp_offset)

/-- Embeds `UdpPacket::payload` (`src/udp/mod.rs` lines 244-255).  The source
computes `udp_header.length() as usize - size_of::<UdpHeader>()` in
`usize` arithmetic: when the UDP length field is below 8 this underflows
(a debug build panics at the subtraction; a release build wraps and then
panics at the slice `&data[payload_offset..payload_offset + payload_len]`
whose end is below its start).  Both panics are modeled as `none`; the
release-mode wrapped values are followed faithfully.  When the in-range
sum exceeds the mbuf length the empty slice is returned. -/
def payload (p : UdpPacket) (data : List Nat) : Option (List Nat) :=
  let lf := be16 data (p.udp_offset + 4)
  let payload_len := wsub lf UDP_HLEN
  let endIdx := wadd p.payload_offset payload_len
  if endIdx ≤ data.length then
    if p.payload_offset ≤ endIdx then
      some ((data.take endIdx).drop p.payload_offset)
    else none
  else some []

end UdpPacket

/-- The slice of `UdpSocket` state the stack pump touches: the local port
and the SPSC receive FIFO of mbuf pointers (`src/udp/mod.rs` 286-299). -/
structure UdpSocketRx where
  local_port : Nat
  recv_queue : RingBuffer Nat
deriving Repr, DecidableEq

/-- The slice of `UdpStack` state `process_rx_packets` touches: the socket
table (in the iteration order of `HashMap::values`, modeled as a list) and
the two stack counters the pump updates. -/
structure UdpStackRx where
  sockets : List UdpSocketRx
  total_errors : Nat
  total_packets_received : Nat
deriving Repr, DecidableEq

/-- One outcome of `rx_queue.recv()` as seen by the pump: a filled mbuf
(pointer plus the frame bytes its data region holds), the 1 ms-timeout
`NetworkError` sentinel, or a fatal error. -/
inductive RxRecv where
  | pkt : Nat → List Nat → RxRecv
  | noPacket : RxRecv
  | fatal : XpdkError → RxRecv
deriving Repr, DecidableEq

/-- The socket-lookup loop inside `process_rx_packets` (lines 512-521):
walk the sockets, and at the first one whose `local_addr().port()` equals
the destination port push the mbuf pointer onto its receive FIFO, counting
a push failure; then break.  Returns the updated sockets, whether a match
was found, and whether the push failed.  Note that neither branch releases
the mbuf to the pool. -/
def deliverToSocket : List UdpSocketRx → Nat → Nat → List UdpSocketRx × Bool × Bool
  | [], _, _ => ([], false, false)
  | s :: rest, port, mbuf =>
    if s.local_port = port then
      let r := SpscRingBuffer.push s.recv_queue mbuf
      ({ s with recv_queue := r.2 } :: rest, true, r.1.isOk = false)
    else
      let r := deliverToSocket rest port mbuf
      (s :: r.1, r.2.1, r.2.2)

/-- The body of `UdpStack::process_rx_packets` (`src/udp/mod.rs` lines
501-538), iterated at most `fuel = 32` times (`max_batch`).  Each round
consumes one `rx_queue.recv()` outcome: a timeout breaks the loop, a fatal
error is returned, and a received mbuf is parsed — on success the packet
is dispatched by destination port (a full FIFO only increments the stack's
`total_errors`; an unmatched port does nothing; in neither case is the
mbuf freed) and `processed` grows; on parse failure the mbuf is released
via `rx_queue.get_pool().free(mbuf)`. -/
def pumpLoop : Nat → UdpStackRx → MbufPool → List RxRecv → Nat →
    Except XpdkError (Nat × UdpStackRx × MbufPool)
  | 0, st, pool, _, processed => .ok (processed, st, pool)
  | _ + 1, st, pool, [], processed => .ok (processed, st, pool)
  | fuel + 1, st, pool, ev :: rest, processed =>
    match ev with
    | .noPacket => .ok (processed, st, pool)
    | .fatal e => .error e
    | .pkt mbuf frame =>
      match UdpPacket.from_mbuf frame with
      | .ok packet =>
        let d := deliverToSocket st.sockets (packet.dst_port frame) mbuf
        let st2 : UdpStackRx :=
          { sockets := d.1,
            total_errors := st.total_errors + (if d.2.2 then 1 else 0),
            total_packets_received := st.total_packets_received + 1 }
        pumpLoop fuel st2 pool rest (processed + 1)
      | .error _ =>
        pumpLoop fuel st (pool.free mbuf) rest processed

/-- Embeds `UdpStack::process_rx_packets`: run the pump with `max_batch = 32`
over the pending receive outcomes, starting from `processed = 0`. -/
def process_rx_packets (st : UdpStackRx) (pool : MbufPool) (events : List RxRecv) :
    Except XpdkError (Nat × UdpStackRx × MbufPool) :=
  pumpLoop 32 st pool events 0

/-- Embeds `UdpSocketStats` (`src/udp/mod.rs` lines 276-283). -/
structure UdpSocketStats where
  packets_received : Nat
  bytes_received : Nat
  packets_sent : Nat
  bytes_sent : Nat
  packets_dropped : Nat
  errors : Nat
deriving Repr, DecidableEq

/-- The slice of `UdpSocket` the send path touches: the optional bound TX
queue — abstracted to the result its `send` would give for a presented
mbuf pointer, since `TxQueue::send` defers to the capture handle — and the
statistics counters. -/
structure UdpSocketTx where
  tx_queue : Option (Nat → Except XpdkError Unit)
  stats : UdpSocketStats

/-- Embeds `UdpSocket::create_packet` (`src/udp/mod.rs` lines 390-398): left
unimplemented in the source, it unconditionally returns the
`NetworkError("Packet creation not implemented")`. -/
def create_packet (_dst_addr : Nat × Nat) (_data : List Nat) :
    Except XpdkError Nat :=
  .error (.NetworkError "Packet creation not implemented")

/-- Embeds `UdpSocket::send` (`src/udp/mod.rs` lines 355-373): fails with
`NetworkError("No transmit queue bound")` without a bound TX queue;
otherwise builds the packet with `create_packet` (the `?` operator
propagates its error before any counter update), sends it on the TX queue,
and only then increments `packets_sent` and `bytes_sent`. -/
def send (s : UdpSocketTx) (dst_addr : Nat × Nat) (data : List Nat) :
    Except XpdkError Unit × UdpSocketTx :=
  match s.tx_queue with
  | none => (.error (.NetworkError "No transmit queue bound"), s)
  | some tq =>
    match create_packet dst_addr data with
    | .error e => (.error e, s)
    | .ok mbuf =>
      match tq mbuf with
      | .error e => (.error e, s)
      | .ok _ =>
        (.ok (),
         { s with stats :=
            { s.stats with packets_sent := s.stats.packets_sent + 1,
                           bytes_sent := s.stats.bytes_sent + data.length } })

/-- The occupancy of a ring buffer: `tail - head` in wrapping `usize`
arithmetic, exactly the quantity every full/empty check of the source
computes. -/
def occupancy (rb : RingBuffer α) : Nat := wsub rb.tail rb.head

/-- The abstract FIFO contents of a ring buffer: the occupied slots read
from `head` upward. -/
def contents [Inhabited α] (rb : RingBuffer α) : List α :=
  (List.range (occupancy rb)).map (fun i => rb.storage.read (rb.head + i))

/-- Well-formedness of a ring-buffer state: the shape every state
reachable from a constructor satisfies — a power-of-two capacity below
`2 ^ 64`, the matching mask and buffer length, 64-bit indices, and
occupancy bounded by the capacity. -/
def RingBufferWF (rb : RingBuffer α) : Prop :=
  (∃ k, k < 64 ∧ rb.storage.capacity = 2 ^ k) ∧
  rb.storage.mask = rb.storage.capacity - 1 ∧
  rb.storage.buffer.length = rb.storage.capacity ∧
  rb.head < USIZE ∧ rb.tail < USIZE ∧ occupancy rb ≤ rb.storage.capacity

/-- A well-formed Ethernet/IPv4/UDP frame of 42 bytes with destination
port `p` and UDP length field `L`: zero MACs, EtherType `0x0800`,
`ihl = 5`, protocol 17. -/
def mkFrame (p L : Nat) : List Nat :=
  List.replicate 12 0 ++ [8, 0] ++ [69, 0, 0, 0, 0, 0, 0, 0, 0, 17] ++
  List.replicate 10 0 ++ [0, 0, p / 256, p % 256, L / 256, L % 256, 0, 0]

/-- Run `n` consecutive `MbufPool::alloc` calls, collecting the returned
pointers; `none` as soon as one fails. -/
def allocN (p : MbufPool) : Nat → Option (List Nat × MbufPool)
  | 0 => some ([], p)
  | n + 1 =>
    match p.alloc with
    | (.ok ptr, p2) =>
      match allocN p2 n with
      | some r => some (ptr :: r.1, r.2)
      | none => none
    | (.error _, _) => none

/-- Run `n` alloc+free pairs on a pool: each round allocates one mbuf and
immediately frees the returned pointer. -/
def allocFreeN (p : MbufPool) : Nat → MbufPool
  | 0 => p
  | n + 1 =>
    match p.alloc with
    | (.ok ptr, p2) => allocFreeN (p2.free ptr) n
    | (.error _, p2) => allocFreeN p2 n

/-- The intrusive freelist of a pool, as the list of record indices
reached by following the link stored in each free record's first word
(its `data` field) from the given head address down to null. -/
def chainFrom (p : MbufPool) : Nat → List Nat → Prop
  | ptr, [] => ptr = 0
  | ptr, i :: rest =>
    ptr = mbufAddr p.base i ∧ i < p.size ∧
    ∃ m, p.mbufs.get? i = some m ∧ chainFrom p m.data rest

/-- Pool invariant: the freelist traverses exactly the distinct in-range
indices of `chain`, `available` counts them, the record array has `size`
entries and the region base is a nonzero address. -/
def PoolInv (p : MbufPool) (chain : List Nat) : Prop :=
  chainFrom p p.free_list chain ∧ p.available = chain.length ∧
  chain.Nodup ∧ (∀ j ∈ chain, j < p.size) ∧
  p.mbufs.length = p.size ∧ 0 < p.base

theorem wsub_lt (a b : Nat) : wsub a b < USIZE := by
  have : 0 < USIZE := by norm_num [USIZE]
  exact Nat.mod_lt _ this

theorem wadd_lt (a b : Nat) : wadd a b < USIZE := by
  have : 0 < USIZE := by norm_num [USIZE]
  exact Nat.mod_lt _ this

theorem wsub_add_tail {h t : Nat} (n : Nat) (hh : h < USIZE) (ht : t < USIZE)
    (hlt : wsub t h + n < USIZE) : wsub (wadd t n) h = wsub t h + n := by
  simp only [wadd, wsub, USIZE] at *
  omega

theorem wsub_sub_head {h t : Nat} (k : Nat) (hh : h < USIZE) (ht : t < USIZE)
    (hk : k ≤ wsub t h) : wsub t (wadd h k) = wsub t h - k := by
  simp only [wadd, wsub, USIZE] at *
  omega

theorem tail_congr {h t : Nat} (hh : h < USIZE) (ht : t < USIZE) :
    t = (h + wsub t h) % USIZE := by
  simp only [wsub, USIZE] at *
  omega

theorem USIZE_eq_pow : USIZE = 2 ^ 64 := by norm_num [USIZE]

theorem getD_set_ne (l : List α) (m n : Nat) (a d : α) (h : m ≠ n) :
    (l.set m a).getD n d = l.getD n d := by
  simp [List.getD_eq_getElem?_getD, List.getElem?_set_ne h]

theorem getD_set_self (l : List α) (m : Nat) (a d : α) (h : m < l.length) :
    (l.set m a).getD m d = a := by
  simp [List.getD_eq_getElem?_getD, List.getElem?_set_self h]

theorem list_eq_map_range (l : List α) (d : α) :
    (List.range l.length).map (fun i => l.getD i d) = l := by
  induction l with
  | nil => rfl
  | cons x xs ih =>
    simp only [List.length_cons, List.range_succ_eq_map, List.map_cons, List.map_map]
    refine congrArg₂ _ rfl ?_
    calc List.map ((fun i => (x :: xs).getD i d) ∘ Nat.succ) (List.range xs.length)
        = List.map (fun i => xs.getD i d) (List.range xs.length) := by
          refine List.map_congr_left ?_
          intro i _
          simp [Function.comp, List.getD_eq_getElem?_getD]
      _ = xs := ih

namespace RingBufferStorage

theorem write_capacity (s : RingBufferStorage α) (i : Nat) (v : α) :
    (s.write i v).capacity = s.capacity := rfl

theorem write_mask (s : RingBufferStorage α) (i : Nat) (v : α) :
    (s.write i v).mask = s.mask := rfl

theorem write_length (s : RingBufferStorage α) (i : Nat) (v : α) :
    (s.write i v).buffer.length = s.buffer.length := by
  simp [write]

theorem write_batch_capacity (src : List α) :
    ∀ (s : RingBufferStorage α) (start : Nat),
      (s.write_batch start src).capacity = s.capacity := by
  induction src with
  | nil => intro s start; rfl
  | cons x xs ih => intro s start; simp [write_batch, ih, write]

theorem write_batch_mask (src : List α) :
    ∀ (s : RingBufferStorage α) (start : Nat),
      (s.write_batch start src).mask = s.mask := by
  induction src with
  | nil => intro s start; rfl
  | cons x xs ih => intro s start; simp [write_batch, ih, write]

theorem write_batch_length (src : List α) :
    ∀ (s : RingBufferStorage α) (start : Nat),
      (s.write_batch start src).buffer.length = s.buffer.length := by
  induction src with
  | nil => intro s start; rfl
  | cons x xs ih =>
    intro s start
    simp [write_batch, ih, write_length]

theorem read_eq_getD_mod [Inhabited α] (s : RingBufferStorage α) (k i : Nat)
    (hm : s.mask = 2 ^ k - 1) : s.read i = s.buffer.getD (i % 2 ^ k) default := by
  simp [read, hm, Nat.and_pow_two_sub_one_eq_mod]

theorem write_buffer_mod (s : RingBufferStorage α) (k i : Nat) (v : α)
    (hm : s.mask = 2 ^ k - 1) :
    (s.write i v).buffer = s.buffer.set (i % 2 ^ k) v := by
  simp [write, hm, Nat.and_pow_two_sub_one_eq_mod]

theorem write_batch_getD_miss (d : α) (k : Nat) (src : List α) :
    ∀ (s : RingBufferStorage α) (start i : Nat),
      s.mask = 2 ^ k - 1 →
      (∀ j, j < src.length → i % 2 ^ k ≠ (start + j) % 2 ^ k) →
      (s.write_batch start src).buffer.getD (i % 2 ^ k) d =
        s.buffer.getD (i % 2 ^ k) d := by
  induction src with
  | nil => intro s start i _ _; rfl
  | cons x xs ih =>
    intro s start i hm hne
    have hne0 : i % 2 ^ k ≠ start % 2 ^ k := by
      have := hne 0 (by simp)
      simpa using this
    have hrec : ∀ j, j < xs.length → i % 2 ^ k ≠ (start + 1 + j) % 2 ^ k := by
      intro j hj
      have := hne (j + 1) (by simpa using Nat.succ_lt_succ hj)
      have harr : start + (j + 1) = start + 1 + j := by omega
      rwa [harr] at this
    show ((s.write start x).write_batch (start + 1) xs).buffer.getD (i % 2 ^ k) d = _
    rw [ih (s.write start x) (start + 1) i (by rw [write_mask, hm]) hrec,
        write_buffer_mod s k start x hm, getD_set_ne]
    omega

theorem write_batch_getD_hit (d : α) (k : Nat) (src : List α) :
    ∀ (s : RingBufferStorage α) (start j : Nat),
      s.mask = 2 ^ k - 1 → s.buffer.length = 2 ^ k →
      src.length ≤ 2 ^ k → j < src.length →
      (s.write_batch start src).buffer.getD ((start + j) % 2 ^ k) d =
        src.getD j d := by
  induction src with
  | nil => intro s start j _ _ _ hj; simp at hj
  | cons x xs ih =>
    intro s start j hm hlen hle hj
    match j with
    | 0 =>
      show ((s.write start x).write_batch (start + 1) xs).buffer.getD ((start + 0) % 2 ^ k) d = x
      have hmiss : ∀ j2, j2 < xs.length → start % 2 ^ k ≠ (start + 1 + j2) % 2 ^ k := by
        intro j2 hj2 heq
        have hmod : (0 : Nat) % 2 ^ k = (1 + j2) % 2 ^ k := by
          have : start + 0 ≡ start + (1 + j2) [MOD 2 ^ k] := by
            unfold Nat.ModEq
            simpa [Nat.add_assoc] using heq
          exact Nat.ModEq.add_left_cancel' start this
        have hlt : 1 + j2 < 2 ^ k := by
          have : xs.length + 1 ≤ 2 ^ k := by simpa using hle
          omega
        rw [Nat.zero_mod, Nat.mod_eq_of_lt hlt] at hmod
        omega
      show ((s.write start x).write_batch (start + 1) xs).buffer.getD (start % 2 ^ k) d = x
      rw [write_batch_getD_miss d k xs (s.write start x) (start + 1) start
            (by rw [write_mask, hm]) hmiss,
          write_buffer_mod s k start x hm]
      exact getD_set_self _ _ _ _ (by rw [hlen]; exact Nat.mod_lt _ (Nat.two_pow_pos k))
    | j' + 1 =>
      show ((s.write start x).write_batch (start + 1) xs).buffer.getD ((start + (j' + 1)) % 2 ^ k) d = xs.getD j' d
      have harr : start + (j' + 1) = start + 1 + j' := by omega
      rw [harr]
      exact ih (s.write start x) (start + 1) j' (by rw [write_mask, hm])
        (by rw [write_length, hlen]) (le_trans (by simp) hle) (by simpa using hj)

theorem read_batch_map [Inhabited α] (s : RingBufferStorage α) (dst : List α) :
    ∀ (start : Nat),
      s.read_batch start dst = (List.range dst.length).map (fun i => s.read (start + i)) := by
  induction dst with
  | nil => intro start; rfl
  | cons x xs ih =>
    intro start
    show s.read start :: s.read_batch (start + 1) xs = _
    rw [ih (start + 1)]
    simp only [List.length_cons, List.range_succ_eq_map, List.map_cons, List.map_map]
    refine congrArg₂ _ (by simp) ?_
    refine List.map_congr_left ?_
    intro i _
    simp [Function.comp]
    refine congrArg _ (by omega)

theorem read_batch_length [Inhabited α] (s : RingBufferStorage α) (dst : List α) (start : Nat) :
    (s.read_batch start dst).length = dst.length := by
  rw [read_batch_map]; simp

end RingBufferStorage

theorem contents_length [Inhabited α] (rb : RingBuffer α) :
    (contents rb).length = occupancy rb := by
  simp [contents]

theorem cap_lt_USIZE {rb : RingBuffer α} (hwf : RingBufferWF rb) :
    rb.storage.capacity < USIZE := by
  obtain ⟨⟨k, hk, hcap⟩, _⟩ := hwf
  rw [hcap, USIZE_eq_pow]
  exact Nat.pow_lt_pow_right (by norm_num) hk

theorem mod_USIZE_mod_cap {rb : RingBuffer α} (hwf : RingBufferWF rb) (x : Nat) :
    x % USIZE % rb.storage.capacity = x % rb.storage.capacity := by
  obtain ⟨⟨k, hk, hcap⟩, _⟩ := hwf
  rw [hcap, USIZE_eq_pow]
  exact Nat.mod_mod_of_dvd x (pow_dvd_pow 2 (le_of_lt hk))

theorem push_batch_ok_spec [Inhabited α] (rb : RingBuffer α) (xs : List α)
    (hwf : RingBufferWF rb) (hle : xs.length ≤ rb.storage.capacity - occupancy rb) :
    (MpmcRingBuffer.push_batch rb xs).1 = .ok () ∧
    contents (MpmcRingBuffer.push_batch rb xs).2 = contents rb ++ xs ∧
    RingBufferWF (MpmcRingBuffer.push_batch rb xs).2 ∧
    (MpmcRingBuffer.push_batch rb xs).2.head = rb.head ∧
    (MpmcRingBuffer.push_batch rb xs).2.storage.capacity = rb.storage.capacity := by
  obtain ⟨⟨k, hk, hcap⟩, hmask, hlen, hh, ht, hocc⟩ := hwf
  by_cases hxs : xs.isEmpty
  · have : xs = [] := List.isEmpty_iff.mp hxs
    subst this
    refine ⟨rfl, by simp [MpmcRingBuffer.push_batch], ?_, rfl, rfl⟩
    exact ⟨⟨k, hk, hcap⟩, hmask, hlen, hh, ht, hocc⟩
  · have hgt : ¬ (xs.length > rb.storage.capacity - wsub rb.tail rb.head) := by
      simp only [occupancy] at hle
      omega
    have hres : MpmcRingBuffer.push_batch rb xs =
        (.ok (), { rb with storage := rb.storage.write_batch rb.tail xs,
                           tail := wadd rb.tail xs.length }) := by
      simp [MpmcRingBuffer.push_batch, hxs, hgt]
    set rb2 : RingBuffer α :=
      { rb with storage := rb.storage.write_batch rb.tail xs,
                tail := wadd rb.tail xs.length } with hrb2
    have hcapU : rb.storage.capacity < USIZE :=
      cap_lt_USIZE ⟨⟨k, hk, hcap⟩, hmask, hlen, hh, ht, hocc⟩
    have hsum : occupancy rb + xs.length < USIZE := by
      have : occupancy rb + xs.length ≤ rb.storage.capacity := by
        simp only [occupancy] at hle hocc ⊢
        omega
      omega
    have hocc2 : occupancy rb2 = occupancy rb + xs.length := by
      simp only [hrb2, occupancy]
      exact wsub_add_tail xs.length hh ht hsum
    have hmask2 : rb2.storage.mask = 2 ^ k - 1 := by
      simp only [hrb2]
      rw [RingBufferStorage.write_batch_mask, hmask, hcap]
    have hlen2 : rb2.storage.buffer.length = 2 ^ k := by
      simp only [hrb2]
      rw [RingBufferStorage.write_batch_length, hlen, hcap]
    have hcap2 : rb2.storage.capacity = rb.storage.capacity := by
      simp only [hrb2]
      rw [RingBufferStorage.write_batch_capacity]
    -- congruence of slot indices modulo the capacity
    have hdvd : (2 : Nat) ^ k ∣ USIZE := by
      rw [USIZE_eq_pow]; exact pow_dvd_pow 2 (le_of_lt hk)
    have htail : rb.tail = (rb.head + occupancy rb) % USIZE := tail_congr hh ht
    have htmod : ∀ j : Nat, (rb.tail + j) % 2 ^ k = (rb.head + occupancy rb + j) % 2 ^ k := by
      intro j
      conv_lhs => rw [htail]
      rw [Nat.add_mod, Nat.mod_mod_of_dvd _ hdvd, ← Nat.add_mod]
    have hcontents : contents rb2 = contents rb ++ xs := by
      rw [contents, hocc2, List.range_add, List.map_append, List.map_map]
      refine congrArg₂ _ ?_ ?_
      · -- the old occupied slots are untouched
        rw [contents]
        refine List.map_congr_left ?_
        intro i hi
        have hi2 : i < occupancy rb := List.mem_range.mp hi
        have hrd : rb2.storage.read (rb.head + i) =
            rb2.storage.buffer.getD ((rb.head + i) % 2 ^ k) default :=
          RingBufferStorage.read_eq_getD_mod _ k _ hmask2
        have hrd0 : rb.storage.read (rb.head + i) =
            rb.storage.buffer.getD ((rb.head + i) % 2 ^ k) default :=
          RingBufferStorage.read_eq_getD_mod _ k _ (by rw [hmask, hcap])
        have hmiss : ∀ j, j < xs.length → (rb.head + i) % 2 ^ k ≠ (rb.tail + j) % 2 ^ k := by
          intro j hj heq
          rw [htmod j] at heq
          have heq2 : rb.head + i ≡ rb.head + (occupancy rb + j) [MOD 2 ^ k] := by
            unfold Nat.ModEq
            rw [heq, Nat.add_assoc]
          have hmodeq : i ≡ occupancy rb + j [MOD 2 ^ k] :=
            Nat.ModEq.add_left_cancel' rb.head heq2
          have hiltc : i < 2 ^ k := by
            have : occupancy rb ≤ 2 ^ k := by rw [← hcap]; exact hocc
            omega
          have hojltc : occupancy rb + j < 2 ^ k := by
            have : occupancy rb + xs.length ≤ 2 ^ k := by
              rw [← hcap]
              simp only [occupancy] at hle hocc ⊢
              omega
            omega
          have : i = occupancy rb + j := by
            have h1 := hmodeq
            unfold Nat.ModEq at h1
            rw [Nat.mod_eq_of_lt hiltc, Nat.mod_eq_of_lt hojltc] at h1
            exact h1
          omega
        show rb2.storage.read (rb.head + i) = rb.storage.read (rb.head + i)
        rw [hrd, hrd0]
        simp only [hrb2]
        exact RingBufferStorage.write_batch_getD_miss default k xs rb.storage rb.tail
          (rb.head + i) (by rw [hmask, hcap]) hmiss
      · -- the new slots hold the pushed batch in order
        calc List.map ((fun i => rb2.storage.read (rb.head + i)) ∘ (occupancy rb + ·))
              (List.range xs.length)
            = List.map (fun j => xs.getD j default) (List.range xs.length) := by
              refine List.map_congr_left ?_
              intro j hj
              have hj2 : j < xs.length := List.mem_range.mp hj
              have hrd : rb2.storage.read (rb.head + (occupancy rb + j)) =
                  rb2.storage.buffer.getD ((rb.head + (occupancy rb + j)) % 2 ^ k) default :=
                RingBufferStorage.read_eq_getD_mod _ k _ hmask2
              show rb2.storage.read (rb.head + (occupancy rb + j)) = xs.getD j default
              rw [hrd]
              have harr : rb.head + (occupancy rb + j) = rb.head + occupancy rb + j := by omega
              rw [harr, ← htmod j]
              simp only [hrb2]
              exact RingBufferStorage.write_batch_getD_hit default k xs rb.storage rb.tail j
                (by rw [hmask, hcap]) (by rw [hlen, hcap])
                (by rw [← hcap]; simp only [occupancy] at hle hocc ⊢; omega) hj2
          _ = xs := list_eq_map_range xs default
    refine ⟨by rw [hres], by rw [hres]; exact hcontents, ?_, by rw [hres], by rw [hres]; exact hcap2⟩
    rw [hres]
    refine ⟨⟨k, hk, by rw [hcap2, hcap]⟩, by rw [hmask2, hcap2, hcap], by rw [hlen2, hcap2, hcap], hh, wadd_lt _ _, ?_⟩
    show occupancy rb2 ≤ rb2.storage.capacity
    rw [hocc2, hcap2]
    simp only [occupancy] at hle hocc ⊢
    omega

theorem pop_batch_ok_spec [Inhabited α] (rb : RingBuffer α) (out : List α)
    (hwf : RingBufferWF rb) (hne : out ≠ []) (hocc0 : occupancy rb ≠ 0) :
    MpmcRingBuffer.pop_batch rb out =
      (.ok (min out.length (occupancy rb)),
       (contents rb).take (min out.length (occupancy rb)) ++
         out.drop (min out.length (occupancy rb)),
       { rb with head := wadd rb.head (min out.length (occupancy rb)) }) ∧
    contents { rb with head := wadd rb.head (min out.length (occupancy rb)) } =
      (contents rb).drop (min out.length (occupancy rb)) ∧
    RingBufferWF { rb with head := wadd rb.head (min out.length (occupancy rb)) } := by
  obtain ⟨⟨k, hk, hcap⟩, hmask, hlen, hh, ht, hocc⟩ := hwf
  set count := min out.length (occupancy rb) with hcount
  have hcle : count ≤ occupancy rb := Nat.min_le_right _ _
  have hclo : count ≤ out.length := Nat.min_le_left _ _
  have hout : ¬ out.isEmpty = true := by simpa [List.isEmpty_iff] using hne
  have hocc0w : ¬ wsub rb.tail rb.head = 0 := hocc0
  have hdvd : (2 : Nat) ^ k ∣ USIZE := by
    rw [USIZE_eq_pow]; exact pow_dvd_pow 2 (le_of_lt hk)
  set rb2 : RingBuffer α := { rb with head := wadd rb.head count } with hrb2
  have hocc2 : occupancy rb2 = occupancy rb - count := by
    simp only [hrb2, occupancy]
    exact wsub_sub_head count hh ht hcle
  have heq : MpmcRingBuffer.pop_batch rb out =
      (.ok count, rb.storage.read_batch rb.head (out.take count) ++ out.drop count, rb2) := by
    simp only [MpmcRingBuffer.pop_batch, hout, Bool.false_eq_true, if_false]
    simp only [hocc0w, if_false]
    rfl
  have hreadpart : rb.storage.read_batch rb.head (out.take count) =
      (contents rb).take count := by
    rw [RingBufferStorage.read_batch_map]
    have hltake : (out.take count).length = count := by
      rw [List.length_take]
      omega
    rw [hltake, contents, ← List.map_take, List.take_range]
    have hmineq : min count (occupancy rb) = count := by omega
    rw [hmineq]
  have hcontents2 : contents rb2 = (contents rb).drop count := by
    have hsplit : occupancy rb = count + (occupancy rb - count) := by omega
    rw [contents, hocc2]
    conv_rhs => rw [contents, hsplit, List.range_add, List.map_append]
    have hlfirst : ((List.range count).map
        (fun i => rb.storage.read (rb.head + i))).length = count := by simp
    rw [List.drop_left' hlfirst, List.map_map]
    refine List.map_congr_left ?_
    intro j hj
    show rb.storage.read (wadd rb.head count + j) = rb.storage.read (rb.head + (count + j))
    rw [RingBufferStorage.read_eq_getD_mod _ k _ (by rw [hmask, hcap]),
        RingBufferStorage.read_eq_getD_mod _ k _ (by rw [hmask, hcap])]
    refine congrArg (fun i => rb.storage.buffer.getD i default) ?_
    calc (wadd rb.head count + j) % 2 ^ k
        = ((rb.head + count) % USIZE % 2 ^ k + j % 2 ^ k) % 2 ^ k := by
          rw [wadd, Nat.add_mod]
      _ = ((rb.head + count) % 2 ^ k + j % 2 ^ k) % 2 ^ k := by
          rw [Nat.mod_mod_of_dvd _ hdvd]
      _ = (rb.head + count + j) % 2 ^ k := by rw [← Nat.add_mod]
      _ = (rb.head + (count + j)) % 2 ^ k := by rw [Nat.add_assoc]
  refine ⟨by rw [heq, hreadpart], hcontents2, ?_⟩
  refine ⟨⟨k, hk, hcap⟩, hmask, hlen, wadd_lt _ _, ht, ?_⟩
  show occupancy rb2 ≤ rb2.storage.capacity
  rw [hocc2]
  show occupancy rb - count ≤ rb.storage.capacity
  omega

/-- C3: for every ring-buffer state, `push` returns `Full` iff the
occupancy (wrapping `tail - head`) is at least the capacity at the point
of reservation, `pop` returns `Empty` iff `head == tail`, the error
branches leave the buffer unchanged, and the SPMC implementations agree
with the MPMC ones on these operations. -/
theorem claim_C3 {α : Type} [Inhabited α] (rb : RingBuffer α) (v : α) :
    ((MpmcRingBuffer.push rb v).1 = .error .Full ↔
        rb.storage.capacity ≤ occupancy rb) ∧
    ((MpmcRingBuffer.push rb v).1.isOk = false → (MpmcRingBuffer.push rb v).2 = rb) ∧
    ((MpmcRingBuffer.pop rb).1 = .error .Empty ↔ rb.head = rb.tail) ∧
    ((MpmcRingBuffer.pop rb).1.isOk = false → (MpmcRingBuffer.pop rb).2 = rb) ∧
    (SpmcRingBuffer.push rb v = MpmcRingBuffer.push rb v) ∧
    (SpmcRingBuffer.pop rb = MpmcRingBuffer.pop rb) := by
  refine ⟨?_, ?_, ?_, ?_, rfl, rfl⟩
  · by_cases h : wsub rb.tail rb.head ≥ rb.storage.capacity
    · simpa [MpmcRingBuffer.push, h, occupancy] using h
    · simp only [occupancy]
      simp [MpmcRingBuffer.push, h]
  · by_cases h : wsub rb.tail rb.head ≥ rb.storage.capacity <;>
      simp [MpmcRingBuffer.push, h, Except.isOk, Except.toBool]
  · by_cases h : rb.head = rb.tail <;> simp [MpmcRingBuffer.pop, h]
  · by_cases h : rb.head = rb.tail <;> simp [MpmcRingBuffer.pop, h, Except.isOk, Except.toBool]

theorem claim_C3_witness :
    (MpmcRingBuffer.pop (MpmcRingBuffer.new Nat 1)).2 = MpmcRingBuffer.new Nat 1 ∧
    ((MpmcRingBuffer.push (MpmcRingBuffer.new Nat 1) 7).1 = Except.error RBError.Full ↔
      (MpmcRingBuffer.new Nat 1).storage.capacity ≤ occupancy (MpmcRingBuffer.new Nat 1)) := by
  have h := claim_C3 (MpmcRingBuffer.new Nat 1) 7
  exact ⟨h.2.2.2.1 (by decide), h.1⟩

theorem is_power_of_two_spec (n : Nat) :
    is_power_of_two n = true ↔ ∃ k, k ≤ n ∧ 2 ^ k = n := by
  simp [is_power_of_two]

/-- C5: the effective capacity of a ring buffer is the requested value
rounded up to the next power of two — unchanged when it is already a
power of two — and `capacity()` returns this effective value (for both
the MPMC and the SPMC constructor, which share the storage). -/
theorem claim_C5 (c : Nat) :
    MpmcRingBuffer.capacity (MpmcRingBuffer.new Nat c) =
      (if is_power_of_two c then c else next_power_of_two c) ∧
    SpmcRingBuffer.capacity (SpmcRingBuffer.new Nat c) =
      MpmcRingBuffer.capacity (MpmcRingBuffer.new Nat c) ∧
    (∃ k, MpmcRingBuffer.capacity (MpmcRingBuffer.new Nat c) = 2 ^ k) ∧
    c ≤ MpmcRingBuffer.capacity (MpmcRingBuffer.new Nat c) ∧
    (∀ k, c ≤ 2 ^ k → MpmcRingBuffer.capacity (MpmcRingBuffer.new Nat c) ≤ 2 ^ k) ∧
    (is_power_of_two c = true → MpmcRingBuffer.capacity (MpmcRingBuffer.new Nat c) = c) := by
  have hdef : MpmcRingBuffer.capacity (MpmcRingBuffer.new Nat c) =
      (if is_power_of_two c then c else next_power_of_two c) := rfl
  by_cases hc : is_power_of_two c = true
  · obtain ⟨k, _, hk⟩ := (is_power_of_two_spec c).mp hc
    have hcc : MpmcRingBuffer.capacity (MpmcRingBuffer.new Nat c) = c := by
      rw [hdef, if_pos hc]
    exact ⟨hdef, rfl, ⟨k, by rw [hcc, hk]⟩, le_of_eq hcc.symm,
           fun j hj => le_trans (le_of_eq hcc) hj, fun _ => hcc⟩
  · have hcc : MpmcRingBuffer.capacity (MpmcRingBuffer.new Nat c) =
        next_power_of_two c := by
      rw [hdef, if_neg hc]
    by_cases hle : c ≤ 1
    · have hval : next_power_of_two c = 1 := by simp [next_power_of_two, hle]
      have hc0 : c ≠ 1 := by
        intro h1
        exact hc ((is_power_of_two_spec c).mpr ⟨0, by omega, by omega⟩)
      refine ⟨hdef, rfl, ⟨0, by rw [hcc, hval]; rfl⟩, by omega, ?_, fun h => absurd h hc⟩
      intro j hj
      rw [hcc, hval]
      exact Nat.one_le_two_pow
    · have hval : next_power_of_two c = 2 ^ Nat.size (c - 1) := by
        simp [next_power_of_two, hle]
      refine ⟨hdef, rfl, ⟨Nat.size (c - 1), by rw [hcc, hval]⟩, ?_, ?_, fun h => absurd h hc⟩
      · rw [hcc, hval]
        have := Nat.lt_size_self (c - 1)
        omega
      · intro j hj
        rw [hcc, hval]
        refine Nat.pow_le_pow_right (by norm_num) ?_
        exact Nat.size_le.mpr (by omega)

theorem claim_C5_witness :
    5 ≤ MpmcRingBuffer.capacity (MpmcRingBuffer.new Nat 5) ∧
    MpmcRingBuffer.capacity (MpmcRingBuffer.new Nat 5) ≤ 2 ^ 3 := by
  have h := claim_C5 5
  exact ⟨h.2.2.2.1, h.2.2.2.2.1 3 (by norm_num)⟩

/-- C4: for every well-formed ring buffer, `push_batch` returns `Full` —
writing nothing — exactly when the slice length exceeds the free space
`capacity - occupancy`, and otherwise appends all of `xs` to the contents;
`pop_batch` fills exactly `min (out length) occupancy` slots returning that
count, errors with `Empty` only when the occupancy is zero (leaving `out`
and the buffer unchanged), and a `pop_batch` returning `k` after a
successful `push_batch xs` into an empty buffer yields `out[0..k] = xs[0..k]`,
the FIFO prefix; the SPMC batch implementations agree with the MPMC ones. -/
theorem claim_C4 {α : Type} [Inhabited α] (rb : RingBuffer α) (xs out : List α)
    (hwf : RingBufferWF rb) :
    ((MpmcRingBuffer.push_batch rb xs).1 = .error .Full ↔
        rb.storage.capacity - occupancy rb < xs.length) ∧
    ((MpmcRingBuffer.push_batch rb xs).1 = .error .Full →
        (MpmcRingBuffer.push_batch rb xs).2 = rb) ∧
    (xs.length ≤ rb.storage.capacity - occupancy rb →
        (MpmcRingBuffer.push_batch rb xs).1 = .ok () ∧
        contents (MpmcRingBuffer.push_batch rb xs).2 = contents rb ++ xs) ∧
    (∀ n out2 rb2, MpmcRingBuffer.pop_batch rb out = (.ok n, out2, rb2) →
        n = min out.length (occupancy rb) ∧
        out2 = (contents rb).take n ++ out.drop n ∧
        contents rb2 = (contents rb).drop n) ∧
    ((MpmcRingBuffer.pop_batch rb out).1 = .error .Empty ↔
        out ≠ [] ∧ occupancy rb = 0) ∧
    ((MpmcRingBuffer.pop_batch rb out).1 = .error .Empty →
        (MpmcRingBuffer.pop_batch rb out).2 = (out, rb)) ∧
    (occupancy rb = 0 → xs.length ≤ rb.storage.capacity →
        ∀ n out2 rb2,
          MpmcRingBuffer.pop_batch (MpmcRingBuffer.push_batch rb xs).2 out =
            (.ok n, out2, rb2) →
          n = min out.length xs.length ∧ out2.take n = xs.take n) ∧
    (SpmcRingBuffer.push_batch rb xs = MpmcRingBuffer.push_batch rb xs) ∧
    (SpmcRingBuffer.pop_batch rb out = MpmcRingBuffer.pop_batch rb out) := by
  have hwf2 := hwf
  obtain ⟨⟨k, hk, hcap⟩, hmask, hlen, hh, ht, hocc⟩ := hwf2
  refine ⟨?_, ?_, ?_, ?_, ?_, ?_, ?_, rfl, rfl⟩
  · -- Full iff the batch exceeds the free space
    by_cases hxs : xs.isEmpty
    · have : xs = [] := List.isEmpty_iff.mp hxs
      subst this
      simp [MpmcRingBuffer.push_batch]
    · by_cases hgt : xs.length > rb.storage.capacity - wsub rb.tail rb.head
      · simp only [occupancy]
        simp [MpmcRingBuffer.push_batch, hxs, hgt]
      · simp only [occupancy]
        simp [MpmcRingBuffer.push_batch, hxs, hgt]
  · -- nothing is written on Full
    by_cases hxs : xs.isEmpty
    · simp [MpmcRingBuffer.push_batch, hxs]
    · by_cases hgt : xs.length > rb.storage.capacity - wsub rb.tail rb.head <;>
        simp [MpmcRingBuffer.push_batch, hxs, hgt]
  · -- a fitting batch is appended in full
    intro hle
    have h := push_batch_ok_spec rb xs hwf hle
    exact ⟨h.1, h.2.1⟩
  · -- pop_batch success: exact count and FIFO slots
    intro n out2 rb2 hpop
    by_cases hout : out = []
    · subst hout
      have hev : MpmcRingBuffer.pop_batch rb ([] : List α) = (.ok 0, [], rb) := rfl
      rw [hev] at hpop
      have h1 : n = 0 := by
        have := congrArg (fun t => t.1) hpop
        simpa using this.symm
      have h2 : out2 = [] := by
        have := congrArg (fun t => t.2.1) hpop
        simpa using this.symm
      have h3 : rb2 = rb := by
        have := congrArg (fun t => t.2.2) hpop
        simpa using this.symm
      subst h1; subst h2; subst h3
      simp
    · by_cases hocc0 : occupancy rb = 0
      · have : ¬ out.isEmpty = true := by simpa [List.isEmpty_iff] using hout
        simp only [occupancy] at hocc0
        simp [MpmcRingBuffer.pop_batch, this, hocc0] at hpop
      · have h := (pop_batch_ok_spec rb out hwf hout hocc0).1
        rw [h] at hpop
        have h1 : n = min out.length (occupancy rb) := by
          have := congrArg (fun t => t.1) hpop
          simpa using this.symm
        have h2 : out2 = (contents rb).take (min out.length (occupancy rb)) ++
            out.drop (min out.length (occupancy rb)) := by
          have := congrArg (fun t => t.2.1) hpop
          simpa using this.symm
        have h3 : rb2 = { rb with
            head := wadd rb.head (min out.length (occupancy rb)) } := by
          have := congrArg (fun t => t.2.2) hpop
          simpa using this.symm
        refine ⟨h1, by rw [h2, h1], ?_⟩
        rw [h3, h1]
        exact (pop_batch_ok_spec rb out hwf hout hocc0).2.1
  · -- Empty iff the buffer is empty (and the output slice is not)
    by_cases hout : out = []
    · subst hout
      simp [MpmcRingBuffer.pop_batch]
    · have hne : ¬ out.isEmpty = true := by simpa [List.isEmpty_iff] using hout
      by_cases hocc0 : wsub rb.tail rb.head = 0
      · simp [MpmcRingBuffer.pop_batch, hne, hocc0, hout, occupancy]
      · simp [MpmcRingBuffer.pop_batch, hne, hocc0, hout, occupancy]
  · -- the Empty branch leaves everything unchanged
    by_cases hout : out = []
    · subst hout
      simp [MpmcRingBuffer.pop_batch]
    · have hne : ¬ out.isEmpty = true := by simpa [List.isEmpty_iff] using hout
      by_cases hocc0 : wsub rb.tail rb.head = 0 <;>
        simp [MpmcRingBuffer.pop_batch, hne, hocc0]
  · -- FIFO-prefix law for a batch pushed into an empty buffer
    intro hocc0 hxs n out2 rb2 hpop
    have hle : xs.length ≤ rb.storage.capacity - occupancy rb := by
      omega
    have hp := push_batch_ok_spec rb xs hwf hle
    set rb1 := (MpmcRingBuffer.push_batch rb xs).2 with hrb1
    have hcrb : contents rb = [] := by
      have := contents_length rb
      rw [hocc0] at this
      exact List.length_eq_zero.mp this
    have hc1 : contents rb1 = xs := by
      rw [hp.2.1, hcrb]
      rfl
    have hocc1 : occupancy rb1 = xs.length := by
      have := contents_length rb1
      rw [hc1] at this
      omega
    by_cases hout : out = []
    · subst hout
      have hev : MpmcRingBuffer.pop_batch rb1 ([] : List α) = (.ok 0, [], rb1) := rfl
      rw [hev] at hpop
      have h1 : n = 0 := by
        have := congrArg (fun t => t.1) hpop
        simpa using this.symm
      have h2 : out2 = [] := by
        have := congrArg (fun t => t.2.1) hpop
        simpa using this.symm
      subst h1; subst h2
      simp
    · by_cases hxs0 : occupancy rb1 = 0
      · have : ¬ out.isEmpty = true := by simpa [List.isEmpty_iff] using hout
        simp only [occupancy] at hxs0
        simp [MpmcRingBuffer.pop_batch, this, hxs0] at hpop
      · have h := (pop_batch_ok_spec rb1 out hp.2.2.1 hout hxs0).1
        rw [h] at hpop
        have h1 : n = min out.length (occupancy rb1) := by
          have := congrArg (fun t => t.1) hpop
          simpa using this.symm
        have h2 : out2 = (contents rb1).take (min out.length (occupancy rb1)) ++
            out.drop (min out.length (occupancy rb1)) := by
          have := congrArg (fun t => t.2.1) hpop
          simpa using this.symm
        have hn : n = min out.length xs.length := by rw [h1, hocc1]
        refine ⟨hn, ?_⟩
        rw [h2, hc1, h1, hocc1, ← hn]
        have hnx : n ≤ xs.length := by omega
        have hltake : (xs.take n).length = n := by
          rw [List.length_take]
          omega
        rw [List.take_left' hltake]

theorem claim_C4_witness :
    (2 : Nat) = min ([0, 0] : List Nat).length ([1, 2, 3] : List Nat).length ∧
    ([1, 2] : List Nat).take 2 = ([1, 2, 3] : List Nat).take 2 := by
  have hwf : RingBufferWF (MpmcRingBuffer.new Nat 4) :=
    ⟨⟨2, by norm_num, rfl⟩, rfl, rfl, by decide, by decide, by decide⟩
  exact (claim_C4 (MpmcRingBuffer.new Nat 4) [1, 2, 3] [0, 0] hwf).2.2.2.2.2.2.1
    (by decide) (by decide) 2 [1, 2] ⟨⟨[1, 2, 3, 0], 4, 3⟩, 2, 3⟩ (by rfl)

theorem getD_append_left' (l₁ l₂ : List α) (n : Nat) (d : α) (h : n < l₁.length) :
    (l₁ ++ l₂).getD n d = l₁.getD n d := by
  simp [List.getD_eq_getElem?_getD, List.getElem?_append_left h]

theorem getD_append_right' (l₁ l₂ : List α) (n : Nat) (d : α) (h : l₁.length ≤ n) :
    (l₁ ++ l₂).getD n d = l₂.getD (n - l₁.length) d := by
  simp [List.getD_eq_getElem?_getD, List.getElem?_append_right h]

/-- C8: `Mbuf::append` copies the bytes into the tail of the data region
`[len, len + bytes.length)` and fails with the overflow `MemoryAllocation`
error exactly when `len + bytes.length > buf_len`; nothing is written and
`len` is unchanged on failure, and `0 ≤ len ≤ buf_len` is preserved. -/
theorem claim_C8 (m : Mbuf) (region bytes : List Nat)
    (hreg : region.length = m.buf_len) (hlen : m.len ≤ m.buf_len) :
    ((Mbuf.append m region bytes).1 = .error (.MemoryAllocation "Mbuf overflow") ↔
        m.buf_len < m.len + bytes.length) ∧
    ((Mbuf.append m region bytes).1.isOk = false →
        (Mbuf.append m region bytes).2.1 = m ∧
        (Mbuf.append m region bytes).2.2 = region) ∧
    (m.len + bytes.length ≤ m.buf_len →
        (Mbuf.append m region bytes).1 = .ok () ∧
        (Mbuf.append m region bytes).2.1.len = m.len + bytes.length ∧
        (Mbuf.append m region bytes).2.2 =
          region.take m.len ++ bytes ++ region.drop (m.len + bytes.length) ∧
        (∀ i, i < bytes.length →
          (Mbuf.append m region bytes).2.2.getD (m.len + i) 0 = bytes.getD i 0) ∧
        (∀ i, i < m.len →
          (Mbuf.append m region bytes).2.2.getD i 0 = region.getD i 0) ∧
        (Mbuf.append m region bytes).2.1.data = m.data ∧
        (Mbuf.append m region bytes).2.1.buf_len = m.buf_len) ∧
    (Mbuf.append m region bytes).2.1.len ≤ (Mbuf.append m region bytes).2.1.buf_len := by
  by_cases hov : m.len + bytes.length > m.buf_len
  · refine ⟨by simp [Mbuf.append, hov], ?_, ?_, ?_⟩
    · intro _
      constructor <;> simp [Mbuf.append, hov]
    · intro hc
      omega
    · simp [Mbuf.append, hov]
      omega
  · have htake : (region.take m.len).length = m.len := by
      rw [List.length_take]
      omega
    refine ⟨by simp [Mbuf.append, hov], ?_, ?_, ?_⟩
    · intro hfalse
      simp [Mbuf.append, hov, Except.isOk, Except.toBool] at hfalse
    · intro _
      refine ⟨by simp [Mbuf.append, hov], by simp [Mbuf.append, hov],
              by simp [Mbuf.append, hov], ?_, ?_,
              by simp [Mbuf.append, hov], by simp [Mbuf.append, hov]⟩
      · intro i hi
        have hres : (Mbuf.append m region bytes).2.2 =
            region.take m.len ++ (bytes ++ region.drop (m.len + bytes.length)) := by
          simp [Mbuf.append, hov]
        rw [hres, getD_append_right' _ _ _ _ (by omega), htake]
        have h2 : m.len + i - m.len = i := by omega
        rw [h2, getD_append_left' _ _ _ _ hi]
      · intro i hi
        have hres : (Mbuf.append m region bytes).2.2 =
            region.take m.len ++ (bytes ++ region.drop (m.len + bytes.length)) := by
          simp [Mbuf.append, hov]
        rw [hres, getD_append_left' _ _ _ _ (by omega)]
        simp [List.getD_eq_getElem?_getD, List.getElem?_take_of_lt hi]
    · simp [Mbuf.append, hov]
      omega

theorem claim_C8_witness :
    ((Mbuf.append (Mbuf.new 0 4) [9, 9, 9, 9] [5, 6]).1 = Except.ok () ∧
      (Mbuf.append (Mbuf.new 0 4) [9, 9, 9, 9] [5, 6]).2.1.len = 0 + 2 ∧
      (Mbuf.append (Mbuf.new 0 4) [9, 9, 9, 9] [5, 6]).2.2 =
        ([9, 9, 9, 9] : List Nat).take 0 ++ [5, 6] ++ ([9, 9, 9, 9] : List Nat).drop (0 + 2) ∧
      (∀ i, i < ([5, 6] : List Nat).length →
        (Mbuf.append (Mbuf.new 0 4) [9, 9, 9, 9] [5, 6]).2.2.getD (0 + i) 0 =
          ([5, 6] : List Nat).getD i 0) ∧
      (∀ i, i < 0 →
        (Mbuf.append (Mbuf.new 0 4) [9, 9, 9, 9] [5, 6]).2.2.getD i 0 =
          ([9, 9, 9, 9] : List Nat).getD i 0) ∧
      (Mbuf.append (Mbuf.new 0 4) [9, 9, 9, 9] [5, 6]).2.1.data = (Mbuf.new 0 4).data ∧
      (Mbuf.append (Mbuf.new 0 4) [9, 9, 9, 9] [5, 6]).2.1.buf_len = (Mbuf.new 0 4).buf_len) := by
  exact (claim_C8 (Mbuf.new 0 4) [9, 9, 9, 9] [5, 6] (by decide) (by decide)).2.2.1 (by decide)

/-- C10: `UdpSocket::send` always fails — with the no-transmit-queue-bound
error when no TX queue is bound, and otherwise with the error of the
unimplemented `create_packet` — and it never increments `packets_sent` or
`bytes_sent` (the socket state is returned unchanged). -/
theorem claim_C10 (s : UdpSocketTx) (dst_addr : Nat × Nat) (data : List Nat) :
    (send s dst_addr data).1.isOk = false ∧
    (send s dst_addr data).2 = s ∧
    (send s dst_addr data).2.stats.packets_sent = s.stats.packets_sent ∧
    (send s dst_addr data).2.stats.bytes_sent = s.stats.bytes_sent ∧
    (s.tx_queue = none →
      (send s dst_addr data).1 = .error (.NetworkError "No transmit queue bound")) ∧
    (∀ tq, s.tx_queue = some tq →
      (send s dst_addr data).1 = .error (.NetworkError "Packet creation not implemented")) := by
  cases htx : s.tx_queue with
  | none =>
    simp [send, htx, Except.isOk, Except.toBool]
  | some tq =>
    simp [send, htx, create_packet, Except.isOk, Except.toBool]

theorem claim_C10_witness :
    (send ⟨none, ⟨0, 0, 0, 0, 0, 0⟩⟩ (0, 0) []).1 =
      Except.error (XpdkError.NetworkError "No transmit queue bound") ∧
    (send ⟨none, ⟨0, 0, 0, 0, 0, 0⟩⟩ (0, 0) []).2.stats.packets_sent = 0 := by
  have h := claim_C10 ⟨none, ⟨0, 0, 0, 0, 0, 0⟩⟩ (0, 0) []
  exact ⟨h.2.2.2.2.1 rfl, h.2.2.1⟩

/-- C6: packet-view construction fails exactly on the ordered checks —
too short for Ethernet (`Short`, including the 0-byte frame), EtherType
not `0x0800` (`NotIPv4`), too short for Ethernet + IPv4 (`Short`), IPv4
protocol not 17 (`NotUDP`), too short for the UDP header at offset
`14 + ihl * 4` (`Short`) — and on success the recorded header offsets are
monotonically increasing and within the frame. -/
theorem claim_C6 (data : List Nat) :
    (UdpPacket.from_mbuf data = .error .ShortEthernet ↔ data.length < ETH_HLEN) ∧
    (UdpPacket.from_mbuf data = .error .NotIpv4 ↔
        ETH_HLEN ≤ data.length ∧ be16 data 12 ≠ 0x0800) ∧
    (UdpPacket.from_mbuf data = .error .ShortIpv4 ↔
        ETH_HLEN ≤ data.length ∧ be16 data 12 = 0x0800 ∧
        data.length < ETH_HLEN + IPV4_HLEN) ∧
    (UdpPacket.from_mbuf data = .error .NotUdp ↔
        ETH_HLEN + IPV4_HLEN ≤ data.length ∧ be16 data 12 = 0x0800 ∧
        data.getD (ETH_HLEN + 9) 0 ≠ 17) ∧
    (UdpPacket.from_mbuf data = .error .ShortUdp ↔
        ETH_HLEN + IPV4_HLEN ≤ data.length ∧ be16 data 12 = 0x0800 ∧
        data.getD (ETH_HLEN + 9) 0 = 17 ∧
        data.length < ETH_HLEN + (data.getD ETH_HLEN 0 &&& 0x0F) * 4 + UDP_HLEN) ∧
    (∀ p, UdpPacket.from_mbuf data = .ok p →
        p.eth_offset = 0 ∧ p.ip_offset = ETH_HLEN ∧
        p.udp_offset = ETH_HLEN + (data.getD ETH_HLEN 0 &&& 0x0F) * 4 ∧
        p.payload_offset = p.udp_offset + UDP_HLEN ∧
        p.eth_offset ≤ p.ip_offset ∧ p.ip_offset ≤ p.udp_offset ∧
        p.udp_offset ≤ p.payload_offset ∧ p.payload_offset ≤ data.length) := by
  simp only [ETH_HLEN, IPV4_HLEN, UDP_HLEN]
  by_cases h1 : data.length < 14
  · refine ⟨?_, ?_, ?_, ?_, ?_, ?_⟩ <;>
      simp [UdpPacket.from_mbuf, ETH_HLEN, IPV4_HLEN, UDP_HLEN, h1] <;> omega
  · by_cases h2 : be16 data 12 = 2048
    · by_cases h3 : data.length < 34
      · refine ⟨?_, ?_, ?_, ?_, ?_, ?_⟩ <;>
          simp [UdpPacket.from_mbuf, ETH_HLEN, IPV4_HLEN, UDP_HLEN, h1, h2, h3] <;> omega
      · by_cases h4 : data[23]?.getD 0 = 17
        · by_cases h5 : data.length < 14 + ((data[14]?.getD 0) &&& 15) * 4 + 8
          · refine ⟨?_, ?_, ?_, ?_, ?_, ?_⟩ <;>
              simp [UdpPacket.from_mbuf, ETH_HLEN, IPV4_HLEN, UDP_HLEN,
                    h1, h2, h3, h4, h5] <;> omega
          · refine ⟨?_, ?_, ?_, ?_, ?_, ?_⟩ <;>
              simp [UdpPacket.from_mbuf, ETH_HLEN, IPV4_HLEN, UDP_HLEN,
                    h1, h2, h3, h4, h5] <;> omega
        · refine ⟨?_, ?_, ?_, ?_, ?_, ?_⟩ <;>
            simp [UdpPacket.from_mbuf, ETH_HLEN, IPV4_HLEN, UDP_HLEN,
                  h1, h2, h3, h4] <;> omega
    · refine ⟨?_, ?_, ?_, ?_, ?_, ?_⟩ <;>
        simp [UdpPacket.from_mbuf, ETH_HLEN, IPV4_HLEN, UDP_HLEN, h1, h2] <;> omega

theorem claim_C6_witness :
    UdpPacket.from_mbuf [] = .error .ShortEthernet ∧
    (UdpPacket.from_mbuf (mkFrame 53 13) = .ok ⟨0, 14, 34, 42⟩ →
      (42 : Nat) ≤ (mkFrame 53 13).length) := by
  constructor
  · exact (claim_C6 []).1.mpr (by decide)
  · intro h
    have := ((claim_C6 (mkFrame 53 13)).2.2.2.2.2 ⟨0, 14, 34, 42⟩ h).2.2.2.2.2.2.2
    simpa using this

/-- C1 (code bug): the first `alloc` on a fresh pool of 2 mbufs (base
address 4096, buffer size 128) returns the mbuf at address 4160, but that
record's `data` field holds the freelist link 4096 — the address of mbuf
record 0, written over `data` at construction and never restored — and
not the data-region address 4352 assigned to slot 1, contradicting the
claimed stability of the data pointer. -/
theorem claim_C1_counterexample :
    (MbufPool.new 4096 2 128).alloc.1 = Except.ok (mbufAddr 4096 1) ∧
    ((MbufPool.new 4096 2 128).alloc.2.mbufs.getD 1 (Mbuf.new 0 0)).data =
      mbufAddr 4096 0 ∧
    ((MbufPool.new 4096 2 128).alloc.2.mbufs.getD 1 (Mbuf.new 0 0)).data ≠
      dataAddr 4096 2 128 1 ∧
    ((MbufPool.new 4096 2 128).mbufs.getD 0 (Mbuf.new 0 0)).data = 0 := by
  refine ⟨by rfl, by decide, by decide, by decide⟩

/-- C2 (code bug): pumping one RX mbuf through `process_rx_packets` with
an exhausted one-mbuf pool shows that (i) a parsed packet whose
destination port 9999 matches no socket is counted as processed while the
mbuf is never released — the pool is returned unchanged; (ii) with a
matching socket whose one-slot FIFO is full, the stack counter
`total_errors` (not a drops counter) is incremented and the mbuf is again
not released; only (iii) a parse failure releases the mbuf to the pool. -/
theorem claim_C2_counterexample :
    (process_rx_packets ⟨[], 0, 0⟩ ((MbufPool.new 4096 1 2048).alloc.2)
        [RxRecv.pkt 4096 (mkFrame 9999 13)] =
      .ok (1, ⟨[], 0, 1⟩, (MbufPool.new 4096 1 2048).alloc.2)) ∧
    (process_rx_packets ⟨[⟨53, ⟨⟨[7], 1, 0⟩, 0, 1⟩⟩], 0, 0⟩
        ((MbufPool.new 4096 1 2048).alloc.2) [RxRecv.pkt 4096 (mkFrame 53 13)] =
      .ok (1, ⟨[⟨53, ⟨⟨[7], 1, 0⟩, 0, 1⟩⟩], 1, 1⟩, (MbufPool.new 4096 1 2048).alloc.2)) ∧
    ((MbufPool.new 4096 1 2048).alloc.2).available = 0 ∧
    (process_rx_packets ⟨[], 0, 0⟩ ((MbufPool.new 4096 1 2048).alloc.2)
        [RxRecv.pkt 4096 []] =
      .ok (0, ⟨[], 0, 0⟩, ((MbufPool.new 4096 1 2048).alloc.2).free 4096)) ∧
    (((MbufPool.new 4096 1 2048).alloc.2).free 4096).available = 1 := by
  refine ⟨by rfl, by rfl, by decide, by rfl, by decide⟩

/-- C7 (code bug): on the 42-byte frame whose UDP length field is 0 the
packet view is constructed successfully, but `payload()` does not return
an empty slice: the `usize` subtraction `length() - 8` underflows and the
call panics (modeled as `none`) — in a debug build at the subtraction, in
a release build at the slice whose wrapped end index 34 lies below its
start 42.  A length field of at least 8 whose range exceeds the frame
does return the empty slice. -/
theorem claim_C7_counterexample :
    UdpPacket.from_mbuf (mkFrame 53 0) = Except.ok ⟨0, 14, 34, 42⟩ ∧
    UdpPacket.payload ⟨0, 14, 34, 42⟩ (mkFrame 53 0) = none ∧
    UdpPacket.payload ⟨0, 14, 34, 42⟩ (mkFrame 53 20) = some [] := by
  refine ⟨by rfl, by rfl, by rfl⟩

theorem mbufAddr_pos {base : Nat} (i : Nat) (hb : 0 < base) : 0 < mbufAddr base i := by
  simp [mbufAddr]
  omega

theorem mbufAddr_decode (base i : Nat) : (mbufAddr base i - base) / MBUF_SIZE = i := by
  simp [mbufAddr, MBUF_SIZE]

theorem chainFrom_congr {p q : MbufPool} :
    ∀ (l : List Nat) (ptr : Nat), chainFrom p ptr l →
      p.base = q.base → p.size = q.size → p.mbufs = q.mbufs →
      chainFrom q ptr l := by
  intro l
  induction l with
  | nil => intro ptr h _ _ _; exact h
  | cons i rest ih =>
    intro ptr h hbase hsize hmb
    obtain ⟨h1, h2, m, h3, h4⟩ := h
    exact ⟨by rw [← hbase]; exact h1, by rw [← hsize]; exact h2, m,
           by rw [← hmb]; exact h3, ih m.data h4 hbase hsize hmb⟩

theorem chainFrom_set {p : MbufPool} (i : Nat) (m2 : Mbuf) :
    ∀ (l : List Nat) (ptr : Nat), chainFrom p ptr l → i ∉ l →
      chainFrom { p with mbufs := p.mbufs.set i m2 } ptr l := by
  intro l
  induction l with
  | nil => intro ptr h _; exact h
  | cons j rest ih =>
    intro ptr h hnot
    obtain ⟨h1, h2, m, h3, h4⟩ := h
    have hji : i ≠ j := by
      intro he
      exact hnot (by rw [he]; exact List.mem_cons_self j rest)
    refine ⟨h1, h2, m, ?_, ih m.data h4 (fun hm => hnot (List.mem_cons_of_mem j hm))⟩
    show (p.mbufs.set i m2).get? j = some m
    rw [List.get?_set_ne _ _ hji]
    exact h3

theorem pool_alloc_ok {p : MbufPool} {i : Nat} {rest : List Nat}
    (hinv : PoolInv p (i :: rest)) :
    ∃ p2, p.alloc = (.ok (mbufAddr p.base i), p2) ∧ PoolInv p2 rest ∧
      p2.available = p.available - 1 ∧ p2.size = p.size ∧ p2.base = p.base ∧
      p2.mbufs = p.mbufs := by
  obtain ⟨hchain, havail, hnodup, hmem, hlen, hb⟩ := hinv
  obtain ⟨h1, h2, m, h3, h4⟩ := hchain
  have hne : ¬ p.free_list = 0 := by
    have := mbufAddr_pos i hb
    omega
  have hidx : (p.free_list - p.base) / MBUF_SIZE = i := by
    rw [h1, mbufAddr_decode]
  refine ⟨{ p with free_list := m.data, available := p.available - 1,
                   peak_usage := max p.peak_usage (p.size - (p.available - 1)) },
          ?_, ?_, rfl, rfl, rfl, rfl⟩
  · show p.alloc = _
    simp only [MbufPool.alloc, hidx, h3]
    rw [if_neg hne, h1]
  · refine ⟨?_, ?_, List.Nodup.of_cons hnodup,
            fun j hj => hmem j (List.mem_cons_of_mem i hj), hlen, hb⟩
    · exact chainFrom_congr rest m.data h4 rfl rfl rfl
    · have : p.available = rest.length + 1 := by simpa using havail
      simp [this]

theorem pool_alloc_exhausted {p : MbufPool} (hinv : PoolInv p []) :
    p.alloc = (.error (.MemoryAllocation "Pool exhausted"), p) := by
  obtain ⟨hchain, _, _, _, _, _⟩ := hinv
  have h0 : p.free_list = 0 := hchain
  simp [MbufPool.alloc, h0]

theorem pool_free_push {p : MbufPool} {chain : List Nat} (i : Nat)
    (hinv : PoolInv p chain) (hi : i < p.size) (hnot : i ∉ chain) :
    PoolInv (p.free (mbufAddr p.base i)) (i :: chain) ∧
    (p.free (mbufAddr p.base i)).available = p.available + 1 ∧
    (p.free (mbufAddr p.base i)).size = p.size ∧
    (p.free (mbufAddr p.base i)).base = p.base := by
  obtain ⟨hchain, havail, hnodup, hmem, hlen, hb⟩ := hinv
  have hne : ¬ mbufAddr p.base i = 0 := by
    have := mbufAddr_pos i hb
    omega
  have hidx : (mbufAddr p.base i - p.base) / MBUF_SIZE = i := mbufAddr_decode _ _
  have hlt : i < p.mbufs.length := by rw [hlen]; exact hi
  obtain ⟨m, hm⟩ : ∃ m, p.mbufs.get? i = some m := ⟨_, List.get?_eq_get hlt⟩
  have hfree : p.free (mbufAddr p.base i) =
      { p with mbufs := p.mbufs.set i { m.reset with data := p.free_list },
               free_list := mbufAddr p.base i,
               available := p.available + 1 } := by
    simp only [MbufPool.free, hidx, hm]
    rw [if_neg hne]
  rw [hfree]
  refine ⟨⟨?_, by simpa using havail, List.nodup_cons.mpr ⟨hnot, hnodup⟩, ?_,
          by simpa using hlen, hb⟩, rfl, rfl, rfl⟩
  · refine ⟨rfl, hi, { m.reset with data := p.free_list },
            List.get?_set_eq_of_lt _ hlt, ?_⟩
    show chainFrom _ p.free_list chain
    have hcs := chainFrom_set i { m.reset with data := p.free_list } chain
      p.free_list hchain hnot
    exact chainFrom_congr chain p.free_list hcs rfl rfl rfl
  · intro j hj
    rcases List.mem_cons.mp hj with h | h
    · subst h; exact hi
    · exact hmem j h

theorem initMbufs_length (base size buf_size : Nat) :
    ∀ n, (initMbufs base size buf_size n).1.length = n := by
  intro n
  induction n with
  | zero => rfl
  | succ n ih => simp [initMbufs, ih]

theorem initMbufs_head (base size buf_size : Nat) :
    ∀ n, (initMbufs base size buf_size n).2 =
      if n = 0 then 0 else mbufAddr base (n - 1) := by
  intro n
  cases n with
  | zero => rfl
  | succ n => simp [initMbufs]

theorem initMbufs_get (base size buf_size : Nat) :
    ∀ n i, i < n → (initMbufs base size buf_size n).1.get? i =
      some { Mbuf.new (dataAddr base size buf_size i) buf_size with
             data := if i = 0 then 0 else mbufAddr base (i - 1) } := by
  intro n
  induction n with
  | zero => intro i hi; omega
  | succ n ih =>
    intro i hi
    show ((initMbufs base size buf_size n).1 ++ [_]).get? i = _
    by_cases hin : i < n
    · rw [List.get?_append (by rw [initMbufs_length]; exact hin)]
      exact ih i hin
    · have hieq : i = n := by omega
      subst hieq
      rw [List.get?_append_right (by rw [initMbufs_length])]
      rw [initMbufs_length]
      simp [initMbufs_head]

theorem pool_new_inv (base N S : Nat) (hb : 0 < base) :
    PoolInv (MbufPool.new base N S) ((List.range N).reverse) := by
  have hmbufs : (MbufPool.new base N S).mbufs = (initMbufs base N S N).1 := rfl
  have hchain : ∀ n, n ≤ N →
      chainFrom (MbufPool.new base N S)
        (if n = 0 then 0 else mbufAddr base (n - 1)) ((List.range n).reverse) := by
    intro n
    induction n with
    | zero => intro _; simp [chainFrom]
    | succ n ih =>
      intro hn
      have hrev : (List.range (n + 1)).reverse = n :: (List.range n).reverse := by
        rw [List.range_succ, List.reverse_append]
        simp
      rw [hrev]
      have hb1 : (MbufPool.new base N S).base = base := rfl
      have hs1 : (MbufPool.new base N S).size = N := rfl
      refine ⟨by rw [hb1]; simp, by rw [hs1]; omega, ?_⟩
      refine ⟨{ Mbuf.new (dataAddr base N S n) S with
                data := if n = 0 then 0 else mbufAddr base (n - 1) }, ?_, ?_⟩
      · rw [hmbufs]
        exact initMbufs_get base N S N n (by omega)
      · exact ih (by omega)
  have hav : (MbufPool.new base N S).available = N := rfl
  refine ⟨?_, by simp [hav], by simp [List.nodup_range], ?_, ?_, hb⟩
  · have hfl : (MbufPool.new base N S).free_list =
        if N = 0 then 0 else mbufAddr base (N - 1) := initMbufs_head base N S N
    rw [hfl]
    exact hchain N (le_refl N)
  · intro j hj
    simp only [List.mem_reverse, List.mem_range] at hj
    simpa using hj
  · rw [hmbufs]
    simpa using initMbufs_length base N S N

theorem allocN_spec : ∀ (chain : List Nat) (p : MbufPool), PoolInv p chain →
    ∃ pN, allocN p chain.length = some (chain.map (mbufAddr p.base), pN) ∧
      PoolInv pN [] ∧ pN.size = p.size ∧ pN.base = p.base ∧ pN.available = 0 := by
  intro chain
  induction chain with
  | nil =>
    intro p hinv
    exact ⟨p, rfl, hinv, rfl, rfl, by obtain ⟨_, h, _⟩ := hinv; simpa using h⟩
  | cons i rest ih =>
    intro p hinv
    obtain ⟨p2, halloc, hinv2, hav, hsz, hbase, hmb⟩ := pool_alloc_ok hinv
    obtain ⟨pN, hN, hinvN, hsz2, hbase2, hav2⟩ := ih p2 hinv2
    refine ⟨pN, ?_, hinvN, by rw [hsz2, hsz], by rw [hbase2, hbase], hav2⟩
    show allocN p (rest.length + 1) = _
    simp only [allocN, halloc, hN]
    rw [hbase]
    simp

theorem pairs_preserve : ∀ (n : Nat) (p : MbufPool) (chain : List Nat),
    PoolInv p chain → chain ≠ [] →
    ∃ chain2, PoolInv (allocFreeN p n) chain2 ∧ chain2.length = chain.length ∧
      chain2 ≠ [] ∧ (allocFreeN p n).available = p.available := by
  intro n
  induction n with
  | zero => intro p chain hinv hne; exact ⟨chain, hinv, rfl, hne, rfl⟩
  | succ n ih =>
    intro p chain hinv hne
    match chain, hne with
    | i :: rest, _ =>
      obtain ⟨p2, halloc, hinv2, hav, hsz, hbase, hmb⟩ := pool_alloc_ok hinv
      have hi : i < p2.size := by
        rw [hsz]
        exact hinv.2.2.2.1 i (List.mem_cons_self i rest)
      have hnot : i ∉ rest := (List.nodup_cons.mp hinv.2.2.1).1
      have hstep : allocFreeN p (n + 1) = allocFreeN (p2.free (mbufAddr p.base i)) n := by
        show (match p.alloc with
              | (.ok ptr, q) => allocFreeN (q.free ptr) n
              | (.error _, q) => allocFreeN q n) = _
        rw [halloc]
      have hfr := pool_free_push i hinv2 hi hnot
      rw [hbase] at hfr
      obtain ⟨hinv3, hav3, hsz3, hbase3⟩ := hfr
      obtain ⟨chain2, hinvN, hlen2, hne2, havN⟩ :=
        ih (p2.free (mbufAddr p.base i)) (i :: rest) hinv3 (by simp)
      refine ⟨chain2, by rw [hstep]; exact hinvN, by rw [hlen2], hne2, ?_⟩
      rw [hstep, havN, hav3, hav]
      have : p.available = rest.length + 1 := by simpa using hinv.2.1
      omega

/-- C9: on a fresh pool of `N` mbufs, `N` allocations all succeed and the
next one fails with the `MemoryAllocation` exhaustion error leaving the
pool unchanged; freeing one previously returned mbuf makes a subsequent
alloc succeed again; and after `N` alloc+free pairs the `available`
counter is back at its initial value `N`. -/
theorem claim_C9 (base N S : Nat) (hb : 0 < base) :
    (∃ ptrs pN, allocN (MbufPool.new base N S) N = some (ptrs, pN) ∧
        pN.alloc = (.error (.MemoryAllocation "Pool exhausted"), pN) ∧
        pN.available = 0 ∧
        (0 < N →
          ((pN.free (mbufAddr base (N - 1))).alloc).1 =
            .ok (mbufAddr base (N - 1)))) ∧
    (allocFreeN (MbufPool.new base N S) N).available = N := by
  have hinv0 := pool_new_inv base N S hb
  have hlchain : ((List.range N).reverse).length = N := by simp
  have hbase0 : (MbufPool.new base N S).base = base := rfl
  obtain ⟨pN, hN, hinvN, hszN, hbaseN, havN⟩ :=
    allocN_spec ((List.range N).reverse) (MbufPool.new base N S) hinv0
  constructor
  · refine ⟨((List.range N).reverse).map (mbufAddr base), pN, ?_, ?_, havN, ?_⟩
    · rw [hlchain, hbase0] at hN
      exact hN
    · exact pool_alloc_exhausted hinvN
    · intro hNpos
      have hi : N - 1 < pN.size := by
        rw [hszN, ← hbase0]
        show N - 1 < (MbufPool.new base N S).size
        have : (MbufPool.new base N S).size = N := rfl
        omega
      have hfr := pool_free_push (N - 1) hinvN hi (by simp)
      have hinv3 := hfr.1
      have hbN : pN.base = base := by rw [hbaseN, hbase0]
      rw [← hbN]
      obtain ⟨p4, halloc4, _⟩ := pool_alloc_ok hinv3
      have hb4 : (pN.free (mbufAddr pN.base (N - 1))).base = pN.base := by
        exact hfr.2.2.2
      rw [halloc4, hb4]
  · by_cases hN0 : N = 0
    · subst hN0
      rfl
    · have hne : ((List.range N).reverse) ≠ [] := by
        simp only [ne_eq, List.reverse_eq_nil_iff]
        intro hc
        rw [List.range_eq_nil] at hc
        exact hN0 hc
      obtain ⟨chain2, hinv2, hlen2, hne2, hav2⟩ :=
        pairs_preserve N (MbufPool.new base N S) ((List.range N).reverse) hinv0 hne
      rw [hav2]
      rfl

theorem claim_C9_witness :
    (allocFreeN (MbufPool.new 4096 16 1024) 16).available = 16 := by
  exact (claim_C9 4096 16 1024 (by norm_num)).2
